import Mathlib

/-!
# Verification of the quantitative options pricing engine

Shallow embedding of the pricing core: the Black-Scholes analytic pricer
(`src/models/black_scholes.py`), the binomial lattice pricer
(`src/models/binomial_tree.py`), the Monte-Carlo pricer
(`src/models/monte_carlo.py`), the Newton-Raphson implied-volatility solver
(`src/data/compute_implied_vol.py`) and the validation helpers
(`src/utils/validation.py`).

Python floats are modelled as real numbers; raising an exception is modelled
as `Except.error`; returning `np.nan` as a failure marker is modelled as
`Option.none` (NaN is discriminable from every valid numeric volatility).
-/

open MeasureTheory Set

noncomputable section

/-! ## Model of `scipy.stats.norm` -/

/-- Standard normal density, the model of `scipy.stats.norm.pdf`. -/
def normPdf (x : ℝ) : ℝ := (Real.sqrt (2 * Real.pi))⁻¹ * Real.exp (-x ^ 2 / 2)

/-- Standard normal CDF, the model of `scipy.stats.norm.cdf`. -/
def normCdf (x : ℝ) : ℝ := ∫ t in Iic x, normPdf t

/-- Model of `scipy.stats.norm.ppf` (inverse CDF). -/
def normPpf (q : ℝ) : ℝ := sInf {x : ℝ | q ≤ normCdf x}

lemma normPdf_eq_gaussian : normPdf = ProbabilityTheory.gaussianPDFReal 0 1 := by
  funext x
  simp [normPdf, ProbabilityTheory.gaussianPDFReal]

lemma normPdf_nonneg (x : ℝ) : 0 ≤ normPdf x := by
  rw [normPdf_eq_gaussian]
  exact ProbabilityTheory.gaussianPDFReal_nonneg 0 1 x

lemma integrable_normPdf : Integrable normPdf := by
  rw [normPdf_eq_gaussian]
  exact ProbabilityTheory.integrable_gaussianPDFReal 0 1

lemma integral_normPdf : ∫ x, normPdf x = 1 := by
  rw [normPdf_eq_gaussian]
  exact ProbabilityTheory.integral_gaussianPDFReal_eq_one 0 one_ne_zero

lemma normPdf_neg (x : ℝ) : normPdf (-x) = normPdf x := by
  simp [normPdf]

lemma continuous_normPdf : Continuous normPdf := by
  unfold normPdf
  fun_prop

/-- The two Gaussian tails add up to the whole mass. -/
lemma normCdf_add_normCdf_neg (x : ℝ) : normCdf x + normCdf (-x) = 1 := by
  have hrefl : normCdf (-x) = ∫ t in Ioi x, normPdf t := by
    have h1 : (∫ t in Iic (-x), normPdf t) = ∫ t in Iic (-x), normPdf (-t) := by
      refine setIntegral_congr_fun measurableSet_Iic ?_
      intro t _
      exact (normPdf_neg t).symm
    rw [normCdf, h1, integral_comp_neg_Iic, neg_neg]
  rw [normCdf, hrefl, intervalIntegral.integral_Iic_add_Ioi integrable_normPdf.integrableOn
    integrable_normPdf.integrableOn, integral_normPdf]

lemma normCdf_nonneg (x : ℝ) : 0 ≤ normCdf x :=
  setIntegral_nonneg measurableSet_Iic fun t _ => normPdf_nonneg t

lemma normCdf_le_one (x : ℝ) : normCdf x ≤ 1 := by
  rw [← integral_normPdf]
  exact setIntegral_le_integral integrable_normPdf (Filter.Eventually.of_forall normPdf_nonneg)

lemma normPdf_le_inv_sqrt_two_pi (x : ℝ) : normPdf x ≤ (Real.sqrt (2 * Real.pi))⁻¹ := by
  have h1 : Real.exp (-x ^ 2 / 2) ≤ 1 := by
    rw [Real.exp_le_one_iff]
    nlinarith [sq_nonneg x]
  have h2 : (0:ℝ) < (Real.sqrt (2 * Real.pi))⁻¹ := by
    have := Real.pi_pos
    positivity
  calc normPdf x = (Real.sqrt (2 * Real.pi))⁻¹ * Real.exp (-x ^ 2 / 2) := rfl
    _ ≤ (Real.sqrt (2 * Real.pi))⁻¹ * 1 := by nlinarith
    _ = (Real.sqrt (2 * Real.pi))⁻¹ := mul_one _

lemma normPdf_le_one (x : ℝ) : normPdf x ≤ 1 := by
  refine le_trans (normPdf_le_inv_sqrt_two_pi x) ?_
  rw [inv_le_one_iff₀]
  right
  rw [show (1:ℝ) = Real.sqrt 1 from (Real.sqrt_one).symm]
  apply Real.sqrt_le_sqrt
  nlinarith [Real.pi_gt_three]

/-- `normCdf` is an antiderivative of `normPdf`. -/
lemma hasDerivAt_normCdf (x : ℝ) : HasDerivAt normCdf (normPdf x) x := by
  have key : ∀ u : ℝ, normCdf u = normCdf 0 + ∫ t in (0:ℝ)..u, normPdf t := by
    intro u
    have h0 : IntegrableOn normPdf (Iic (0:ℝ)) := integrable_normPdf.integrableOn
    have hu2 : IntegrableOn normPdf (Iic u) := integrable_normPdf.integrableOn
    have := intervalIntegral.integral_Iic_sub_Iic h0 hu2
    rw [normCdf, normCdf]
    linarith [this]
  have hd : HasDerivAt (fun u => normCdf 0 + ∫ t in (0:ℝ)..u, normPdf t) (normPdf x) x := by
    exact (continuous_normPdf.integral_hasStrictDerivAt 0 x).hasDerivAt.const_add (normCdf 0)
  have : (fun u => normCdf 0 + ∫ t in (0:ℝ)..u, normPdf t) = normCdf := by
    funext u
    rw [key u]
  rwa [this] at hd

/-! ## `BlackScholes` (src/models/black_scholes.py) -/

structure BlackScholes where
  S : ℝ
  K : ℝ
  T : ℝ
  r : ℝ
  sigma : ℝ

/-- `BlackScholes._calculate_d1`. -/
def BlackScholes.d1 (b : BlackScholes) : ℝ :=
  (Real.log (b.S / b.K) + (b.r + 0.5 * b.sigma ^ 2) * b.T) / (b.sigma * Real.sqrt b.T)

/-- `BlackScholes._calculate_d2`. -/
def BlackScholes.d2 (b : BlackScholes) : ℝ := b.d1 - b.sigma * Real.sqrt b.T

/-- `BlackScholes.call_price`. -/
def BlackScholes.call_price (b : BlackScholes) : ℝ :=
  b.S * normCdf b.d1 - b.K * Real.exp (-b.r * b.T) * normCdf b.d2

/-- `BlackScholes.put_price`. -/
def BlackScholes.put_price (b : BlackScholes) : ℝ :=
  b.K * Real.exp (-b.r * b.T) * normCdf (-b.d2) - b.S * normCdf (-b.d1)

/-- Result shape of `BlackScholes.greeks`: each field holds the (call, put) pair. -/
structure GreeksResult where
  delta : ℝ × ℝ
  gamma : ℝ × ℝ
  vega : ℝ × ℝ
  theta : ℝ × ℝ
  rho : ℝ × ℝ

/-- `BlackScholes.greeks`. -/
def BlackScholes.greeks (b : BlackScholes) : GreeksResult :=
  let delta_call := normCdf b.d1
  let delta_put := delta_call - 1
  let gamma := normPdf b.d1 / (b.S * b.sigma * Real.sqrt b.T)
  let vega := b.S * normPdf b.d1 * Real.sqrt b.T / 100
  let theta_call := (-(b.S * normPdf b.d1 * b.sigma) / (2 * Real.sqrt b.T) -
      b.r * b.K * Real.exp (-b.r * b.T) * normCdf b.d2) / 365
  let theta_put := (-(b.S * normPdf b.d1 * b.sigma) / (2 * Real.sqrt b.T) +
      b.r * b.K * Real.exp (-b.r * b.T) * normCdf (-b.d2)) / 365
  let rho_call := b.K * b.T * Real.exp (-b.r * b.T) * normCdf b.d2 / 100
  let rho_put := -b.K * b.T * Real.exp (-b.r * b.T) * normCdf (-b.d2) / 100
  { delta := (delta_call, delta_put), gamma := (gamma, gamma), vega := (vega, vega),
    theta := (theta_call, theta_put), rho := (rho_call, rho_put) }

/-! Raw (unscaled) Greeks as the specification words them:
the standard closed-form derivatives before the per-1%-move and per-day scaling. -/

/-- Raw vega `S * phi(d1) * sqrt(T)`. -/
def rawVega (b : BlackScholes) : ℝ := b.S * normPdf b.d1 * Real.sqrt b.T

/-- Raw call rho `K * T * e^(-rT) * Phi(d2)`. -/
def rawRhoCall (b : BlackScholes) : ℝ :=
  b.K * b.T * Real.exp (-b.r * b.T) * normCdf b.d2

/-- Raw put rho `-K * T * e^(-rT) * Phi(-d2)`. -/
def rawRhoPut (b : BlackScholes) : ℝ :=
  -b.K * b.T * Real.exp (-b.r * b.T) * normCdf (-b.d2)

/-- Raw call theta `-(S * phi(d1) * sigma) / (2 sqrt T) - r K e^(-rT) Phi(d2)`. -/
def rawThetaCall (b : BlackScholes) : ℝ :=
  -(b.S * normPdf b.d1 * b.sigma) / (2 * Real.sqrt b.T) -
    b.r * b.K * Real.exp (-b.r * b.T) * normCdf b.d2

/-- Raw put theta `-(S * phi(d1) * sigma) / (2 sqrt T) + r K e^(-rT) Phi(-d2)`. -/
def rawThetaPut (b : BlackScholes) : ℝ :=
  -(b.S * normPdf b.d1 * b.sigma) / (2 * Real.sqrt b.T) +
    b.r * b.K * Real.exp (-b.r * b.T) * normCdf (-b.d2)

/-! ## Claim theorems (analytic pricer) -/

/-- C1: for every valid parameter set (S>0, K>0, T>0, any r, sigma>0) the analytic
pricer satisfies put-call parity: `|call - put - (S - K e^(-rT))| < 1e-6`
(in the real-number model the difference is exactly zero). -/
theorem putCallParity_analytic (S K T r sigma : ℝ)
    (hS : 0 < S) (hK : 0 < K) (hT : 0 < T) (hsigma : 0 < sigma) :
    |(BlackScholes.mk S K T r sigma).call_price - (BlackScholes.mk S K T r sigma).put_price -
      (S - K * Real.exp (-r * T))| < 1e-6 := by
  set b : BlackScholes := BlackScholes.mk S K T r sigma
  have h1 : normCdf (-b.d1) = 1 - normCdf b.d1 := by
    linarith [normCdf_add_normCdf_neg b.d1]
  have h2 : normCdf (-b.d2) = 1 - normCdf b.d2 := by
    linarith [normCdf_add_normCdf_neg b.d2]
  have hz : b.call_price - b.put_price - (S - K * Real.exp (-r * T)) = 0 := by
    rw [BlackScholes.call_price, BlackScholes.put_price, h1, h2]
    show b.S * normCdf b.d1 - b.K * Real.exp (-b.r * b.T) * normCdf b.d2 -
      (b.K * Real.exp (-b.r * b.T) * (1 - normCdf b.d2) -
        b.S * (1 - normCdf b.d1)) - (S - K * Real.exp (-r * T)) = 0
    show S * normCdf b.d1 - K * Real.exp (-r * T) * normCdf b.d2 -
      (K * Real.exp (-r * T) * (1 - normCdf b.d2) -
        S * (1 - normCdf b.d1)) - (S - K * Real.exp (-r * T)) = 0
    ring
  rw [hz]
  norm_num

/-- Witness for C1 at S=1, K=1, T=1, r=0, sigma=1. -/
theorem putCallParity_analytic_witness :
    |(BlackScholes.mk 1 1 1 0 1).call_price - (BlackScholes.mk 1 1 1 0 1).put_price -
      (1 - 1 * Real.exp (-0 * 1))| < 1e-6 :=
  putCallParity_analytic 1 1 1 0 1 (by norm_num) (by norm_num) (by norm_num) (by norm_num)

/-- C9: the `greeks()` dictionary satisfies all the relations the specification
states: gamma and vega agree between call and put, `delta_put = delta_call - 1`,
and the reported vega, rho and theta are the raw closed-form sensitivities
scaled by 1/100, 1/100 and 1/365 respectively. -/
theorem greeks_relations (b : BlackScholes) :
    (b.greeks).gamma.1 = (b.greeks).gamma.2 ∧
    (b.greeks).vega.1 = (b.greeks).vega.2 ∧
    (b.greeks).delta.2 = (b.greeks).delta.1 - 1 ∧
    (b.greeks).vega.1 = rawVega b / 100 ∧
    (b.greeks).rho.1 = rawRhoCall b / 100 ∧
    (b.greeks).rho.2 = rawRhoPut b / 100 ∧
    (b.greeks).theta.1 = rawThetaCall b / 365 ∧
    (b.greeks).theta.2 = rawThetaPut b / 365 := by
  exact ⟨rfl, rfl, rfl, rfl, rfl, rfl, rfl, rfl⟩

/-! ## `BinomialTree` (src/models/binomial_tree.py) -/

structure BinomialTree where
  S : ℝ
  K : ℝ
  T : ℝ
  r : ℝ
  sigma : ℝ
  n_steps : ℕ
  dt : ℝ
  u : ℝ
  d : ℝ
  p : ℝ

/-- `dt = T / n_steps` as computed in `BinomialTree.__init__`. -/
def tree_dt (T : ℝ) (n_steps : ℕ) : ℝ := T / n_steps

/-- `u = exp(sigma * sqrt(dt))`. -/
def tree_u (T sigma : ℝ) (n_steps : ℕ) : ℝ :=
  Real.exp (sigma * Real.sqrt (tree_dt T n_steps))

/-- `d = 1 / u`. -/
def tree_d (T sigma : ℝ) (n_steps : ℕ) : ℝ := 1 / tree_u T sigma n_steps

/-- `p = (exp(r*dt) - d) / (u - d)`, the risk-neutral up-probability. -/
def tree_p (T r sigma : ℝ) (n_steps : ℕ) : ℝ :=
  (Real.exp (r * tree_dt T n_steps) - tree_d T sigma n_steps) /
    (tree_u T sigma n_steps - tree_d T sigma n_steps)

/-- Model of `BinomialTree.__init__`.  A raised Python exception is modelled as
`Except.error`; the source constructor contains no `raise` and no range check on
`p`, so every parameter combination yields `Except.ok`. -/
def mkBinomialTree (S K T r sigma : ℝ) (n_steps : ℕ) : Except String BinomialTree :=
  Except.ok
    { S := S, K := K, T := T, r := r, sigma := sigma, n_steps := n_steps,
      dt := tree_dt T n_steps, u := tree_u T sigma n_steps, d := tree_d T sigma n_steps,
      p := tree_p T r sigma n_steps }

/-- One round of the source's backward-induction loop:
`V = discount * (p * V[1:] + (1 - p) * V[:-1])`. -/
def backStep (discount p : ℝ) (V : List ℝ) : List ℝ :=
  List.zipWith (fun vup vdown => discount * (p * vup + (1 - p) * vdown)) V.tail V

/-- Terminal asset prices `S * u^j * d^(n_steps - j)` for `j = 0..n_steps`. -/
def BinomialTree.terminal_prices (b : BinomialTree) : List ℝ :=
  (List.range (b.n_steps + 1)).map (fun j => b.S * b.u ^ j * b.d ^ (b.n_steps - j))

/-- `BinomialTree.call_price`: terminal call payoffs, then `n_steps` rounds of
backward induction, returning `V[0]`. -/
def BinomialTree.call_price (b : BinomialTree) : ℝ :=
  let V := b.terminal_prices.map (fun s => max (s - b.K) 0)
  ((backStep (Real.exp (-b.r * b.dt)) b.p)^[b.n_steps] V).headD 0

/-- `BinomialTree.put_price`. -/
def BinomialTree.put_price (b : BinomialTree) : ℝ :=
  let V := b.terminal_prices.map (fun s => max (b.K - s) 0)
  ((backStep (Real.exp (-b.r * b.dt)) b.p)^[b.n_steps] V).headD 0

/-- One backward-induction round as the specification words it: a vector of
length `m` is replaced by one of length `m - 1` whose element `i` is
`discount * (p * V[i+1] + (1 - p) * V[i])`. -/
def specRound (discount p : ℝ) (V : List ℝ) : List ℝ :=
  List.ofFn fun i : Fin (V.length - 1) =>
    discount * (p * V.getD (i + 1) 0 + (1 - p) * V.getD i 0)

/-- The backward-induction value the specification describes: apply `n` rounds
to the terminal payoff vector and return the single remaining value. -/
def specBackwardValue (discount p : ℝ) (payoffs : List ℝ) (n : ℕ) : ℝ :=
  ((specRound discount p)^[n] payoffs).headD 0

lemma backStep_eq_specRound (discount p : ℝ) (V : List ℝ) :
    backStep discount p V = specRound discount p V := by
  apply List.ext_getElem
  · simp [backStep, specRound]
  · intro i hi1 hi2
    have hlen : i < V.length - 1 := by
      simpa [backStep] using hi1
    have hi3 : i + 1 < V.length := by omega
    have hi4 : i < V.length := by omega
    have htail : i < V.tail.length := by
      simp only [List.length_tail]
      omega
    simp only [backStep, specRound, List.getElem_zipWith, List.getElem_ofFn]
    rw [List.getElem_tail]
    rw [List.getD_eq_getElem V 0 hi3, List.getD_eq_getElem V 0 hi4]

lemma backStep_length (discount p : ℝ) (V : List ℝ) :
    (backStep discount p V).length = V.length - 1 := by
  simp [backStep]

lemma backStep_iterate_length (discount p : ℝ) (V : List ℝ) (k : ℕ) :
    ((backStep discount p)^[k] V).length = V.length - k := by
  induction k generalizing V with
  | zero => simp
  | succ k ih =>
    rw [Function.iterate_succ_apply, ih, backStep_length]
    omega

/-- C4: for every `n_steps ≥ 1`, the lattice pricer computes exactly the
backward-induction value: starting from the `n+1` terminal prices
`S u^j d^(n-j)` with payoffs `max(S_T - K, 0)` (resp. `max(K - S_T, 0)`),
applying `n` rounds that shrink the vector by one element each, and returning
the single remaining value (the vector after `n` rounds has length exactly 1). -/
theorem binomial_backward_induction (b : BinomialTree) (hn : 1 ≤ b.n_steps) :
    b.call_price =
      specBackwardValue (Real.exp (-b.r * b.dt)) b.p
        (b.terminal_prices.map (fun s => max (s - b.K) 0)) b.n_steps ∧
    b.put_price =
      specBackwardValue (Real.exp (-b.r * b.dt)) b.p
        (b.terminal_prices.map (fun s => max (b.K - s) 0)) b.n_steps ∧
    ((backStep (Real.exp (-b.r * b.dt)) b.p)^[b.n_steps]
        (b.terminal_prices.map (fun s => max (s - b.K) 0))).length = 1 ∧
    ((backStep (Real.exp (-b.r * b.dt)) b.p)^[b.n_steps]
        (b.terminal_prices.map (fun s => max (b.K - s) 0))).length = 1 := by
  have hfun : backStep (Real.exp (-b.r * b.dt)) b.p =
      specRound (Real.exp (-b.r * b.dt)) b.p := by
    funext V
    exact backStep_eq_specRound _ _ V
  have hplen : b.terminal_prices.length = b.n_steps + 1 := by
    simp [BinomialTree.terminal_prices]
  refine ⟨?_, ?_, ?_, ?_⟩
  · rw [BinomialTree.call_price, specBackwardValue, hfun]
  · rw [BinomialTree.put_price, specBackwardValue, hfun]
  · rw [backStep_iterate_length]
    simp [hplen]
  · rw [backStep_iterate_length]
    simp [hplen]

/-- Witness for C4 at S=K=T=1, r=0, sigma=1, n_steps=1. -/
theorem binomial_backward_induction_witness :
    ∃ b : BinomialTree, mkBinomialTree 1 1 1 0 1 1 = Except.ok b ∧
      b.call_price =
        specBackwardValue (Real.exp (-b.r * b.dt)) b.p
          (b.terminal_prices.map (fun s => max (s - b.K) 0)) b.n_steps := by
  refine ⟨_, rfl, ?_⟩
  exact (binomial_backward_induction _ (by norm_num)).1

/-- Helper discriminator for `Except` results. -/
def exceptIsOk {α : Type} (e : Except String α) : Bool :=
  match e with
  | Except.ok _ => true
  | Except.error _ => false

/-- C6 counterexample: at S=1, K=1, T=1, r=1, sigma=1/2, n_steps=1 the
risk-neutral probability `p` exceeds 1, yet the constructor still returns a
normal tree (`Except.ok`), so the out-of-range condition is not reported to
the caller by any distinguishable signal. -/
theorem tree_p_out_of_range_counterexample :
    1 < tree_p 1 1 (1/2) 1 ∧
    exceptIsOk (mkBinomialTree 1 1 1 1 (1/2) 1) = true := by
  constructor
  · have hdt : tree_dt 1 1 = 1 := by
      simp [tree_dt]
    have hu : tree_u 1 (1/2) 1 = Real.exp (1/2) := by
      rw [tree_u, hdt, Real.sqrt_one, mul_one]
    have hd : tree_d 1 (1/2) 1 = Real.exp (-(1/2)) := by
      rw [tree_d, hu, one_div, ← Real.exp_neg]
    have hden : 0 < tree_u 1 (1/2) 1 - tree_d 1 (1/2) 1 := by
      rw [hu, hd]
      have : (-(1/2) : ℝ) < 1/2 := by norm_num
      linarith [Real.exp_lt_exp.mpr this]
    rw [tree_p, one_lt_div hden, hdt, hu, hd, mul_one]
    have : (1/2 : ℝ) < 1 := by norm_num
    linarith [Real.exp_lt_exp.mpr this]
  · rfl

/-- C6 amended: the constructor performs no range check on `p`: for every
parameter combination it returns `Except.ok` with `p` equal to the raw
risk-neutral formula, neither clamped nor reported. -/
theorem tree_p_never_reported_or_clamped (S K T r sigma : ℝ) (n_steps : ℕ) :
    mkBinomialTree S K T r sigma n_steps =
      Except.ok
        { S := S, K := K, T := T, r := r, sigma := sigma, n_steps := n_steps,
          dt := tree_dt T n_steps, u := tree_u T sigma n_steps,
          d := tree_d T sigma n_steps, p := tree_p T r sigma n_steps } :=
  rfl

/-! ## `MonteCarlo` (src/models/monte_carlo.py) -/

/-- Arithmetic mean of a sample, the model of `np.mean`. -/
def npMean (l : List ℝ) : ℝ := l.sum / l.length

/-- Population standard deviation, the model of `np.std` (ddof = 0). -/
def npStd (l : List ℝ) : ℝ :=
  Real.sqrt (npMean (l.map (fun x => (x - npMean l) ^ 2)))

structure MonteCarlo where
  S : ℝ
  K : ℝ
  T : ℝ
  r : ℝ
  sigma : ℝ
  n_simulations : ℕ
  n_jobs : ℤ
  simulated_prices : Option (List ℝ)

/-- `MonteCarlo._simulate_batch`: `batch_size` standard-normal draws under the
given seed, mapped through the GBM terminal-price formula
`S * exp((r - sigma^2/2) T + sigma sqrt(T) Z)`.  The seeded generator
`np.random.seed(seed); np.random.standard_normal` is modelled by the abstract
sampler `normal : seed -> index -> draw`. -/
def simulate_batch (m : MonteCarlo) (normal : ℕ → ℕ → ℝ) (batch_size seed : ℕ) : List ℝ :=
  ((List.range batch_size).map (normal seed)).map fun Z =>
    m.S * Real.exp ((m.r - 0.5 * m.sigma ^ 2) * m.T + m.sigma * Real.sqrt m.T * Z)

/-- Effective worker count: `n_jobs` when positive, otherwise `os.cpu_count()`
(the `cpu_count` argument). -/
def mcCores (m : MonteCarlo) (cpu_count : ℕ) : ℕ :=
  if 0 < m.n_jobs then m.n_jobs.toNat else cpu_count

/-- `MonteCarlo.simulate`: one batch of size `n_simulations // n_cores` per
worker, seeds `0..n_cores-1`, plus one remainder batch with seed `n_cores`
when the count does not divide evenly; the concatenation is cached in
`simulated_prices`. -/
def MonteCarlo.simulate (m : MonteCarlo) (normal : ℕ → ℕ → ℝ) (cpu_count : ℕ) : MonteCarlo :=
  let n_cores : ℕ := mcCores m cpu_count
  let batch_size := m.n_simulations / n_cores
  let results := (List.range n_cores).map fun i => simulate_batch m normal batch_size i
  let prices := results.flatten
  let remainder := m.n_simulations - prices.length
  let all_prices :=
    if 0 < remainder then prices ++ simulate_batch m normal remainder n_cores else prices
  { m with simulated_prices := some all_prices }

/-- `MonteCarlo.call_price`; `raise ValueError` is modelled as `Except.error`. -/
def MonteCarlo.call_price (m : MonteCarlo) : Except String ℝ :=
  match m.simulated_prices with
  | none => Except.error "Must run simulate() first"
  | some prices =>
    Except.ok (Real.exp (-m.r * m.T) * npMean (prices.map fun s => max (s - m.K) 0))

/-- `MonteCarlo.put_price`. -/
def MonteCarlo.put_price (m : MonteCarlo) : Except String ℝ :=
  match m.simulated_prices with
  | none => Except.error "Must run simulate() first"
  | some prices =>
    Except.ok (Real.exp (-m.r * m.T) * npMean (prices.map fun s => max (m.K - s) 0))

/-- Model of Python's `str.lower()`: lower-case every character. -/
def pyLower (s : String) : String := String.mk (s.data.map Char.toLower)

/-- `MonteCarlo.confidence_interval`.  Note the source's duck-typed branch:
any `option_type` whose lower-case form is not `"call"` falls into the put
branch; there is no error path for an unrecognized option type. -/
def MonteCarlo.confidence_interval (m : MonteCarlo) (option_type : String)
    (confidence : ℝ) : Except String (ℝ × ℝ) :=
  match m.simulated_prices with
  | none => Except.error "Must run simulate() first"
  | some prices =>
    let payoffs :=
      if pyLower option_type = "call" then prices.map fun s => max (s - m.K) 0
      else prices.map fun s => max (m.K - s) 0
    let discounted_payoffs := payoffs.map fun x => Real.exp (-m.r * m.T) * x
    let mean_price := npMean discounted_payoffs
    let std_error := npStd discounted_payoffs / Real.sqrt (m.n_simulations)
    let z_score := normPpf ((1 + confidence) / 2)
    let margin := z_score * std_error
    Except.ok (mean_price - margin, mean_price + margin)

/-- C7: before `simulate()` has populated the cache, each of `call_price`,
`put_price` and `confidence_interval` fails explicitly with the
"Must run simulate() first" condition rather than returning a number. -/
theorem mc_query_before_simulate (m : MonteCarlo) (h : m.simulated_prices = none) :
    m.call_price = Except.error "Must run simulate() first" ∧
    m.put_price = Except.error "Must run simulate() first" ∧
    ∀ option_type confidence,
      m.confidence_interval option_type confidence =
        Except.error "Must run simulate() first" := by
  refine ⟨?_, ?_, ?_⟩
  · rw [MonteCarlo.call_price, h]
  · rw [MonteCarlo.put_price, h]
  · intro option_type confidence
    rw [MonteCarlo.confidence_interval, h]

/-- A fresh Monte-Carlo pricer with the cache absent. -/
def mcFresh : MonteCarlo :=
  { S := 100, K := 100, T := 1, r := 0.05, sigma := 0.2,
    n_simulations := 1000, n_jobs := -1, simulated_prices := none }

/-- Witness for C7 on a fresh instance. -/
theorem mc_query_before_simulate_witness :
    mcFresh.call_price = Except.error "Must run simulate() first" ∧
    mcFresh.put_price = Except.error "Must run simulate() first" ∧
    mcFresh.confidence_interval "call" 0.95 = Except.error "Must run simulate() first" := by
  have h := mc_query_before_simulate mcFresh rfl
  exact ⟨h.1, h.2.1, h.2.2 "call" 0.95⟩

/-- A Monte-Carlo pricer whose cache holds one simulated price. -/
def mcRan : MonteCarlo :=
  { S := 100, K := 100, T := 1, r := 0.05, sigma := 0.2,
    n_simulations := 1, n_jobs := 1, simulated_prices := some [105] }

/-- C3 counterexample: with a populated cache, `confidence_interval` on the
unrecognized option type "banana" does **not** fail: it returns a normal
`Except.ok` result (the put-branch interval). -/
theorem ci_invalid_type_counterexample :
    exceptIsOk (mcRan.confidence_interval "banana" 0.95) = true := rfl

/-- C3 amended: any `option_type` whose lower-case form is not `"call"` is
silently treated as a put: `confidence_interval` returns the same `Except.ok`
interval as for `"put"`, rather than failing. -/
theorem ci_invalid_type_treated_as_put (m : MonteCarlo) (prices : List ℝ)
    (option_type : String) (confidence : ℝ)
    (hcache : m.simulated_prices = some prices)
    (hot : pyLower option_type ≠ "call") :
    m.confidence_interval option_type confidence =
      m.confidence_interval "put" confidence ∧
    exceptIsOk (m.confidence_interval option_type confidence) = true := by
  have hput : pyLower "put" ≠ "call" := by decide
  constructor
  · simp only [MonteCarlo.confidence_interval, hcache, if_neg hot, if_neg hput]
  · simp only [MonteCarlo.confidence_interval, hcache, if_neg hot]
    rfl

/-- Witness for the amended C3 at the concrete invalid type "banana". -/
theorem ci_invalid_type_treated_as_put_witness :
    mcRan.confidence_interval "banana" 0.95 = mcRan.confidence_interval "put" 0.95 ∧
    exceptIsOk (mcRan.confidence_interval "banana" 0.95) = true :=
  ci_invalid_type_treated_as_put mcRan [105] "banana" 0.95 rfl
    (by decide)

lemma simulate_batch_length (m : MonteCarlo) (normal : ℕ → ℕ → ℝ)
    (batch_size seed : ℕ) :
    (simulate_batch m normal batch_size seed).length = batch_size := by
  simp [simulate_batch]

/-- The partition the specification describes: one batch of size
`n_simulations / n_cores` per worker with seeds `0..n_cores-1`, plus one extra
remainder batch of size `n_simulations % n_cores` with seed `n_cores` when the
count does not divide evenly. -/
def mcPlannedPrices (m : MonteCarlo) (normal : ℕ → ℕ → ℝ) (cpu_count : ℕ) : List ℝ :=
  ((List.range (mcCores m cpu_count)).map fun i =>
      simulate_batch m normal (m.n_simulations / mcCores m cpu_count) i).flatten
    ++ (if 0 < m.n_simulations % mcCores m cpu_count
        then simulate_batch m normal (m.n_simulations % mcCores m cpu_count)
          (mcCores m cpu_count)
        else [])

/-- The seeds `simulate()` passes to the batches, in order. -/
def mcSeeds (m : MonteCarlo) (cpu_count : ℕ) : List ℕ :=
  List.range (mcCores m cpu_count)
    ++ (if 0 < m.n_simulations % mcCores m cpu_count then [mcCores m cpu_count] else [])

lemma mc_flatten_length (m : MonteCarlo) (normal : ℕ → ℕ → ℝ) (cpu_count : ℕ) :
    (((List.range (mcCores m cpu_count)).map fun i =>
        simulate_batch m normal (m.n_simulations / mcCores m cpu_count) i).flatten).length
      = mcCores m cpu_count * (m.n_simulations / mcCores m cpu_count) := by
  rw [List.length_flatten, List.map_map]
  have hconst : (List.length ∘ fun i =>
      simulate_batch m normal (m.n_simulations / mcCores m cpu_count) i)
      = fun _ : ℕ => m.n_simulations / mcCores m cpu_count := by
    funext i
    simp [simulate_batch_length]
  rw [hconst, List.map_const', List.sum_replicate]
  simp

lemma mc_simulate_eq_planned (m : MonteCarlo) (normal : ℕ → ℕ → ℝ) (cpu_count : ℕ) :
    (m.simulate normal cpu_count).simulated_prices =
      some (mcPlannedPrices m normal cpu_count) := by
  have hrem : m.n_simulations - (((List.range (mcCores m cpu_count)).map fun i =>
      simulate_batch m normal (m.n_simulations / mcCores m cpu_count) i).flatten).length
      = m.n_simulations % mcCores m cpu_count := by
    rw [mc_flatten_length]
    have := Nat.div_add_mod m.n_simulations (mcCores m cpu_count)
    omega
  simp only [MonteCarlo.simulate, mcPlannedPrices, hrem]
  by_cases hz : 0 < m.n_simulations % mcCores m cpu_count
  · rw [if_pos hz, if_pos hz]
  · rw [if_neg hz, if_neg hz, List.append_nil]

/-- C8: after `simulate()`, the cache is exactly the planned partition: one
equal-size batch per worker plus one extra remainder batch when the count does
not divide evenly; the total length is exactly `n_simulations`, every
per-worker batch has the same size `n_simulations / n_cores`, and the batch
seeds are pairwise distinct. -/
theorem mc_simulate_batching (m : MonteCarlo) (normal : ℕ → ℕ → ℝ) (cpu_count : ℕ)
    (hcores : 0 < mcCores m cpu_count) (hsims : 1 ≤ m.n_simulations) :
    (m.simulate normal cpu_count).simulated_prices =
      some (mcPlannedPrices m normal cpu_count) ∧
    (mcPlannedPrices m normal cpu_count).length = m.n_simulations ∧
    ((List.range (mcCores m cpu_count)).map fun i =>
        (simulate_batch m normal (m.n_simulations / mcCores m cpu_count) i).length) =
      List.replicate (mcCores m cpu_count) (m.n_simulations / mcCores m cpu_count) ∧
    (mcSeeds m cpu_count).Nodup := by
  refine ⟨mc_simulate_eq_planned m normal cpu_count, ?_, ?_, ?_⟩
  · rw [mcPlannedPrices]
    by_cases hz : 0 < m.n_simulations % mcCores m cpu_count
    · rw [if_pos hz, List.length_append, mc_flatten_length, simulate_batch_length]
      have := Nat.div_add_mod m.n_simulations (mcCores m cpu_count)
      omega
    · rw [if_neg hz, List.append_nil, mc_flatten_length]
      have := Nat.div_add_mod m.n_simulations (mcCores m cpu_count)
      omega
  · rw [List.map_congr_left fun i _ =>
      simulate_batch_length m normal (m.n_simulations / mcCores m cpu_count) i]
    rw [List.map_const', List.length_range]
  · rw [mcSeeds]
    by_cases hz : 0 < m.n_simulations % mcCores m cpu_count
    · rw [if_pos hz]
      refine (List.nodup_range _).append (List.nodup_singleton _) ?_
      intro a ha hb
      rw [List.mem_range] at ha
      rw [List.mem_singleton] at hb
      omega
    · rw [if_neg hz, List.append_nil]
      exact List.nodup_range _

/-- A fresh Monte-Carlo pricer with three requested simulations and two jobs. -/
def mcSmall : MonteCarlo :=
  { S := 1, K := 1, T := 1, r := 0, sigma := 1,
    n_simulations := 3, n_jobs := 2, simulated_prices := none }

/-- Witness for C8 at `n_simulations = 3`, `n_jobs = 2`: one batch of size 1
per worker (seeds 0 and 1) plus a remainder batch of size 1 with seed 2. -/
theorem mc_simulate_batching_witness :
    (mcSmall.simulate (fun _ _ => 0) 4).simulated_prices =
      some (mcPlannedPrices mcSmall (fun _ _ => 0) 4) ∧
    (mcPlannedPrices mcSmall (fun _ _ => 0) 4).length = 3 ∧
    (mcSeeds mcSmall 4).Nodup := by
  have h := mc_simulate_batching mcSmall (fun _ _ => 0) 4 (by decide) (by decide)
  exact ⟨h.1, h.2.1, h.2.2.2⟩

/-! ## `implied_volatility_newton` (src/data/compute_implied_vol.py) -/

/-- `black_scholes_price` helper: call price for 'call', put price otherwise. -/
def model_price (S K T r sigma : ℝ) (option_type : String) : ℝ :=
  if option_type = "call" then (BlackScholes.mk S K T r sigma).call_price
  else (BlackScholes.mk S K T r sigma).put_price

/-- The Newton-Raphson iteration of `implied_volatility_newton`.  `fuel` is the
remaining iteration budget (`max_iter` at the top call); returning `np.nan`
(the failure marker, discriminable from every valid volatility) is modelled as
`none`.  Per iteration: converged when `|diff| < tol`; fail when
`vega < 1e-10`; otherwise update `sigma - diff/vega` clamped into
`[0.01, 5.0]`. -/
def newtonLoop (market_price S K T r : ℝ) (option_type : String) (tol : ℝ) :
    ℕ → ℝ → Option ℝ
  | 0, _ => none
  | fuel + 1, sigma =>
    let b : BlackScholes := BlackScholes.mk S K T r sigma
    let price := if option_type = "call" then b.call_price else b.put_price
    let vega := S * normPdf b.d1 * Real.sqrt T
    let diff := price - market_price
    if |diff| < tol then some sigma
    else if vega < 1e-10 then none
    else newtonLoop market_price S K T r option_type tol fuel
      (max 0.01 (min (sigma - diff / vega) 5.0))

/-- Any numeric value the Newton loop returns satisfies the convergence
criterion of the iteration in which it was returned. -/
lemma newtonLoop_some_converged (market_price S K T r : ℝ) (option_type : String)
    (tol : ℝ) (fuel : ℕ) (sigma v : ℝ)
    (hv : newtonLoop market_price S K T r option_type tol fuel sigma = some v) :
    |model_price S K T r v option_type - market_price| < tol := by
  induction fuel generalizing sigma with
  | zero => simp [newtonLoop] at hv
  | succ fuel ih =>
    simp only [newtonLoop] at hv
    by_cases hconv : |(if option_type = "call"
        then (BlackScholes.mk S K T r sigma).call_price
        else (BlackScholes.mk S K T r sigma).put_price) - market_price| < tol
    · rw [if_pos hconv] at hv
      have hvs : sigma = v := Option.some.inj hv
      rw [model_price, ← hvs]
      exact hconv
    · rw [if_neg hconv] at hv
      by_cases hveg : S * normPdf (BlackScholes.mk S K T r sigma).d1 * Real.sqrt T < 1e-10
      · rw [if_pos hveg] at hv
        exact absurd hv (by simp)
      · rw [if_neg hveg] at hv
        exact ih _ hv

/-- `implied_volatility_newton` with explicit tuning arguments. -/
def implied_volatility_newton (market_price S K T r : ℝ) (option_type : String)
    (initial_sigma : ℝ) (max_iter : ℕ) (tol : ℝ) : Option ℝ :=
  newtonLoop market_price S K T r option_type tol max_iter initial_sigma

/-- `implied_volatility_newton` at its default arguments
`initial_sigma=0.3`, `max_iter=100`, `tol=1e-6`. -/
def implied_vol_with_defaults (market_price S K T r : ℝ) (option_type : String) :
    Option ℝ :=
  implied_volatility_newton market_price S K T r option_type 0.3 100 1e-6

/-! Analytic facts used to settle the round-trip claim: the Black-Scholes
call price is differentiable in sigma with derivative `S * phi(d1) * sqrt T`
(the raw vega), hence Lipschitz in sigma with a constant proportional to
`S * sqrt T`. -/

lemma call_vega_identity (S K T r sigma : ℝ) (hS : 0 < S) (hK : 0 < K) (hT : 0 < T)
    (hsig : sigma ≠ 0) :
    K * Real.exp (-r * T) * normPdf ((BlackScholes.mk S K T r sigma).d2)
      = S * normPdf ((BlackScholes.mk S K T r sigma).d1) := by
  set d1 : ℝ := (BlackScholes.mk S K T r sigma).d1 with hd1def
  have hsqT : 0 < Real.sqrt T := Real.sqrt_pos.mpr hT
  have hden : sigma * Real.sqrt T ≠ 0 := mul_ne_zero hsig (ne_of_gt hsqT)
  have hkey : d1 * (sigma * Real.sqrt T)
      = Real.log (S / K) + (r + 0.5 * sigma ^ 2) * T := by
    rw [hd1def]
    show (Real.log (S / K) + (r + 0.5 * sigma ^ 2) * T) / (sigma * Real.sqrt T) *
      (sigma * Real.sqrt T) = _
    exact div_mul_cancel₀ _ hden
  show K * Real.exp (-r * T) * normPdf (d1 - sigma * Real.sqrt T) = S * normPdf d1
  have hu : (sigma * Real.sqrt T) ^ 2 = sigma ^ 2 * T := by
    rw [mul_pow, Real.sq_sqrt hT.le]
  have hexp : Real.exp (-(d1 - sigma * Real.sqrt T) ^ 2 / 2)
      = Real.exp (-d1 ^ 2 / 2) * (S / K) * Real.exp (r * T) := by
    rw [show (S / K : ℝ) = Real.exp (Real.log (S / K)) from
      (Real.exp_log (div_pos hS hK)).symm]
    rw [← Real.exp_add, ← Real.exp_add]
    congr 1
    have expand : -(d1 - sigma * Real.sqrt T) ^ 2 / 2
        = -d1 ^ 2 / 2 + d1 * (sigma * Real.sqrt T) - sigma ^ 2 * T / 2 := by
      rw [← hu]
      ring
    rw [expand, hkey]
    ring
  rw [normPdf, normPdf, hexp]
  have he : Real.exp (-r * T) * Real.exp (r * T) = 1 := by
    rw [← Real.exp_add]
    norm_num
  have hrearrange : K * Real.exp (-r * T) *
      ((Real.sqrt (2 * Real.pi))⁻¹ * (Real.exp (-d1 ^ 2 / 2) * (S / K) * Real.exp (r * T)))
      = K * (S / K) * (Real.exp (-r * T) * Real.exp (r * T)) *
        ((Real.sqrt (2 * Real.pi))⁻¹ * Real.exp (-d1 ^ 2 / 2)) := by
    ring
  rw [hrearrange, he, mul_comm K (S / K), div_mul_cancel₀ S (ne_of_gt hK)]
  ring

lemma hasDerivAt_call_price_sigma (S K T r sigma : ℝ)
    (hS : 0 < S) (hK : 0 < K) (hT : 0 < T) (hsig : sigma ≠ 0) :
    HasDerivAt (fun s => (BlackScholes.mk S K T r s).call_price)
      (S * normPdf ((BlackScholes.mk S K T r sigma).d1) * Real.sqrt T) sigma := by
  have hsqT : 0 < Real.sqrt T := Real.sqrt_pos.mpr hT
  have hden : sigma * Real.sqrt T ≠ 0 := mul_ne_zero hsig (ne_of_gt hsqT)
  have hsq : HasDerivAt (fun s : ℝ => s ^ 2) (2 * sigma) sigma := by
    simpa using hasDerivAt_pow 2 sigma
  have hnum : HasDerivAt (fun s : ℝ => Real.log (S / K) + (r + 0.5 * s ^ 2) * T)
      (0.5 * (2 * sigma) * T) sigma :=
    (((hsq.const_mul 0.5).const_add r).mul_const T).const_add (Real.log (S / K))
  have hlin : HasDerivAt (fun s : ℝ => s * Real.sqrt T) (Real.sqrt T) sigma := by
    simpa using (hasDerivAt_id sigma).mul_const (Real.sqrt T)
  have hd1 : HasDerivAt (fun s => (BlackScholes.mk S K T r s).d1)
      ((0.5 * (2 * sigma) * T * (sigma * Real.sqrt T) -
        (Real.log (S / K) + (r + 0.5 * sigma ^ 2) * T) * Real.sqrt T) /
          (sigma * Real.sqrt T) ^ 2) sigma := hnum.div hlin hden
  set D1 : ℝ := (0.5 * (2 * sigma) * T * (sigma * Real.sqrt T) -
    (Real.log (S / K) + (r + 0.5 * sigma ^ 2) * T) * Real.sqrt T) /
      (sigma * Real.sqrt T) ^ 2
  have hd2 : HasDerivAt (fun s => (BlackScholes.mk S K T r s).d2)
      (D1 - Real.sqrt T) sigma := hd1.sub hlin
  have hc1 : HasDerivAt (fun s => normCdf ((BlackScholes.mk S K T r s).d1))
      (normPdf ((BlackScholes.mk S K T r sigma).d1) * D1) sigma :=
    (hasDerivAt_normCdf ((BlackScholes.mk S K T r sigma).d1)).comp sigma hd1
  have hc2 : HasDerivAt (fun s => normCdf ((BlackScholes.mk S K T r s).d2))
      (normPdf ((BlackScholes.mk S K T r sigma).d2) * (D1 - Real.sqrt T)) sigma :=
    (hasDerivAt_normCdf ((BlackScholes.mk S K T r sigma).d2)).comp sigma hd2
  have hsum : HasDerivAt
      (fun s => S * normCdf ((BlackScholes.mk S K T r s).d1) -
        K * Real.exp (-r * T) * normCdf ((BlackScholes.mk S K T r s).d2))
      (S * (normPdf ((BlackScholes.mk S K T r sigma).d1) * D1) -
        K * Real.exp (-r * T) *
          (normPdf ((BlackScholes.mk S K T r sigma).d2) * (D1 - Real.sqrt T))) sigma :=
    (hc1.const_mul S).sub (hc2.const_mul (K * Real.exp (-r * T)))
  have hval : S * (normPdf ((BlackScholes.mk S K T r sigma).d1) * D1) -
      K * Real.exp (-r * T) *
        (normPdf ((BlackScholes.mk S K T r sigma).d2) * (D1 - Real.sqrt T))
      = S * normPdf ((BlackScholes.mk S K T r sigma).d1) * Real.sqrt T := by
    have hid := call_vega_identity S K T r sigma hS hK hT hsig
    have step : K * Real.exp (-r * T) *
        (normPdf ((BlackScholes.mk S K T r sigma).d2) * (D1 - Real.sqrt T))
        = K * Real.exp (-r * T) * normPdf ((BlackScholes.mk S K T r sigma).d2) *
          (D1 - Real.sqrt T) := by
      ring
    rw [step, hid]
    ring
  rw [hval] at hsum
  exact hsum

lemma normPdf_le_inv_sqrt_six (x : ℝ) : normPdf x ≤ (Real.sqrt 6)⁻¹ := by
  refine le_trans (normPdf_le_inv_sqrt_two_pi x) ?_
  have h6 : (0:ℝ) < Real.sqrt 6 := Real.sqrt_pos.mpr (by norm_num)
  rw [inv_le_inv₀ (Real.sqrt_pos.mpr (by positivity)) h6]
  apply Real.sqrt_le_sqrt
  nlinarith [Real.pi_gt_three]

/-- On the segment [0.3, 0.302] with S = 1/1000, K = 1, T = 1, r = 0, the call
price moves by less than the solver tolerance 1e-6. -/
lemma call_price_change_small :
    |(BlackScholes.mk (1/1000) 1 1 0 (0.3:ℝ)).call_price -
      (BlackScholes.mk (1/1000) 1 1 0 (0.302:ℝ)).call_price| < 1e-6 := by
  set f : ℝ → ℝ := fun s => (BlackScholes.mk (1/1000) 1 1 0 s).call_price with hf
  set C : ℝ := (1/1000) * (Real.sqrt 6)⁻¹ with hC
  have hmvt : ∀ x ∈ Icc (0.3:ℝ) 0.302, ‖f x - f 0.3‖ ≤ C * (x - 0.3) := by
    have hderiv : ∀ x ∈ Icc (0.3:ℝ) 0.302, HasDerivWithinAt f
        ((fun y => (1/1000) * normPdf ((BlackScholes.mk (1/1000) 1 1 0 y).d1) *
          Real.sqrt 1) x) (Icc (0.3:ℝ) 0.302) x := by
      intro x hx
      have hx0 : x ≠ 0 := by
        have := hx.1
        intro hcontra
        rw [hcontra] at this
        norm_num at this
      exact (hasDerivAt_call_price_sigma (1/1000) 1 1 0 x (by norm_num) (by norm_num)
        (by norm_num) hx0).hasDerivWithinAt
    have hbound : ∀ x ∈ Ico (0.3:ℝ) 0.302,
        ‖(fun y => (1/1000) * normPdf ((BlackScholes.mk (1/1000) 1 1 0 y).d1) *
          Real.sqrt 1) x‖ ≤ C := by
      intro x _
      have hpdf := normPdf_le_inv_sqrt_six ((BlackScholes.mk (1/1000) 1 1 0 x).d1)
      have hpdf0 := normPdf_nonneg ((BlackScholes.mk (1/1000) 1 1 0 x).d1)
      show ‖(1:ℝ)/1000 * normPdf ((BlackScholes.mk (1/1000) 1 1 0 x).d1) * Real.sqrt 1‖ ≤ C
      rw [Real.sqrt_one, Real.norm_eq_abs, mul_one, abs_of_nonneg (by positivity), hC]
      nlinarith
    exact norm_image_sub_le_of_norm_deriv_le_segment' hderiv hbound
  have happ := hmvt 0.302 ⟨by norm_num, le_refl _⟩
  have hsq6 : (2:ℝ) < Real.sqrt 6 := by
    rw [show (2:ℝ) = Real.sqrt 4 from by
      rw [show (4:ℝ) = 2^2 by norm_num, Real.sqrt_sq (by norm_num)]]
    exact Real.sqrt_lt_sqrt (by norm_num) (by norm_num)
  have hs60 : (0:ℝ) < Real.sqrt 6 := by linarith
  have hinv : (Real.sqrt 6)⁻¹ < 2⁻¹ := by
    exact inv_strictAnti₀ (by norm_num) hsq6
  have hinv0 : (0:ℝ) < (Real.sqrt 6)⁻¹ := by positivity
  have hCbound : C * (0.302 - 0.3) < 1e-6 := by
    rw [hC]
    nlinarith
  rw [Real.norm_eq_abs] at happ
  rw [abs_sub_comm]
  calc |f 0.302 - f 0.3| ≤ C * (0.302 - 0.3) := happ
    _ < 1e-6 := hCbound

/-- Converging on the first inspected iterate returns the current sigma. -/
lemma newtonLoop_converged_now (market_price S K T r : ℝ) (option_type : String)
    (tol : ℝ) (fuel : ℕ) (sigma : ℝ)
    (hconv : |(if option_type = "call" then (BlackScholes.mk S K T r sigma).call_price
        else (BlackScholes.mk S K T r sigma).put_price) - market_price| < tol) :
    newtonLoop market_price S K T r option_type tol (fuel + 1) sigma = some sigma := by
  simp only [newtonLoop]
  rw [if_pos hconv]

/-- C5 counterexample: the valid parameter set S=1/1000, K=1, T=1, r=0 with
true volatility sigma_0 = 0.302 in [0.05, 1.0].  The synthetic market price is
so flat in sigma (tiny vega) that the solver's price-space tolerance 1e-6 is
already met at the initial guess 0.3, so it returns 0.3, and
|0.3 - 0.302| = 0.002 >= 1e-4: the claimed sigma-space recovery bound fails. -/
theorem newton_roundtrip_counterexample :
    ((0:ℝ) < 1/1000 ∧ (0:ℝ) < 1 ∧ (0:ℝ) < 1 ∧
      (0.05:ℝ) ≤ 0.302 ∧ (0.302:ℝ) ≤ 1.0) ∧
    implied_vol_with_defaults ((BlackScholes.mk (1/1000) 1 1 0 (0.302:ℝ)).call_price)
      (1/1000) 1 1 0 "call" = some 0.3 ∧
    ¬ |(0.3:ℝ) - 0.302| < 1e-4 := by
  have habs : |(0.3:ℝ) - 0.302| = 0.002 := by
    rw [abs_sub_comm, abs_of_nonneg (by norm_num : (0:ℝ) ≤ 0.302 - 0.3)]
    norm_num
  refine ⟨⟨by norm_num, by norm_num, by norm_num, by norm_num, by norm_num⟩, ?_,
    by rw [habs]; norm_num⟩
  show newtonLoop ((BlackScholes.mk (1/1000) 1 1 0 (0.302:ℝ)).call_price)
    (1/1000) 1 1 0 "call" 1e-6 (99 + 1) 0.3 = some 0.3
  apply newtonLoop_converged_now
  rw [if_pos rfl]
  exact call_price_change_small

/-- C5 amended: the round-trip guarantee that actually holds is in price
space, not volatility space: whenever the solver returns a volatility `v` for
the synthetic market price generated at any valid sigma_0 in [0.05, 1.0], the
model price at `v` matches the synthetic price to within the solver tolerance
1e-6; `|v - sigma_0| < 1e-4` is not guaranteed (see the counterexample). -/
theorem newton_roundtrip_price_tolerance (S K T r sigma0 : ℝ)
    (hS : 0 < S) (hK : 0 < K) (hT : 0 < T)
    (hlo : 0.05 ≤ sigma0) (hhi : sigma0 ≤ 1.0) :
    ∀ v, implied_vol_with_defaults ((BlackScholes.mk S K T r sigma0).call_price)
        S K T r "call" = some v →
      |(BlackScholes.mk S K T r v).call_price -
        (BlackScholes.mk S K T r sigma0).call_price| < 1e-6 := by
  intro v hv
  have h := newtonLoop_some_converged ((BlackScholes.mk S K T r sigma0).call_price)
    S K T r "call" 1e-6 100 0.3 v hv
  rw [model_price, if_pos rfl] at h
  exact h

/-- Witness for the amended C5 at S=K=T=1, r=0, sigma_0=0.3: the solver
converges immediately (the synthetic price equals the model price at the
initial guess) and the returned volatility reprices within tolerance. -/
theorem newton_roundtrip_price_tolerance_witness :
    |(BlackScholes.mk 1 1 1 0 (0.3:ℝ)).call_price -
      (BlackScholes.mk 1 1 1 0 (0.3:ℝ)).call_price| < 1e-6 := by
  have heval : implied_vol_with_defaults ((BlackScholes.mk 1 1 1 0 (0.3:ℝ)).call_price)
      1 1 1 0 "call" = some 0.3 := by
    show newtonLoop ((BlackScholes.mk 1 1 1 0 (0.3:ℝ)).call_price)
      1 1 1 0 "call" 1e-6 (99 + 1) 0.3 = some 0.3
    apply newtonLoop_converged_now
    rw [if_pos rfl, sub_self, abs_zero]
    norm_num
  exact newton_roundtrip_price_tolerance 1 1 1 0 0.3 (by norm_num) (by norm_num)
    (by norm_num) (by norm_num) (by norm_num) 0.3 heval

/-- C10: any numeric volatility the solver returns is either exactly the
starting guess (convergence detected before any Newton update) or lies in the
clamp interval [0.01, 5.0]; no value outside that interval is returned after
an update step. -/
theorem newton_result_initial_or_clamped
    (market_price S K T r : ℝ) (option_type : String) (tol : ℝ)
    (fuel : ℕ) (sigma0 v : ℝ)
    (h : newtonLoop market_price S K T r option_type tol fuel sigma0 = some v) :
    v = sigma0 ∨ (0.01 ≤ v ∧ v ≤ 5.0) := by
  induction fuel generalizing sigma0 with
  | zero => simp [newtonLoop] at h
  | succ fuel ih =>
    simp only [newtonLoop] at h
    by_cases hconv : |(if option_type = "call"
        then (BlackScholes.mk S K T r sigma0).call_price
        else (BlackScholes.mk S K T r sigma0).put_price) - market_price| < tol
    · rw [if_pos hconv] at h
      left
      exact (Option.some.inj h).symm
    · rw [if_neg hconv] at h
      by_cases hveg : S * normPdf (BlackScholes.mk S K T r sigma0).d1 * Real.sqrt T < 1e-10
      · rw [if_pos hveg] at h
        exact absurd h (by simp)
      · rw [if_neg hveg] at h
        right
        rcases ih _ h with h2 | h2
        · rw [h2]
          exact ⟨le_max_left _ _, max_le (by norm_num) (min_le_right _ _)⟩
        · exact h2

/-- Witness for C10: when the synthetic market price already matches the model
price at the initial guess, the solver returns that guess, which satisfies the
disjunction. -/
theorem newton_result_initial_or_clamped_witness :
    (3:ℝ)/10 = 3/10 ∨ (0.01 ≤ (3:ℝ)/10 ∧ (3:ℝ)/10 ≤ 5.0) := by
  have heval : newtonLoop ((BlackScholes.mk 100 100 1 (1/20) (3/10)).call_price)
      100 100 1 (1/20) "call" (1e-6) 1 (3/10) = some (3/10) := by
    show newtonLoop ((BlackScholes.mk 100 100 1 (1/20) (3/10)).call_price)
      100 100 1 (1/20) "call" (1e-6) (0 + 1) (3/10) = some (3/10)
    norm_num [newtonLoop]
  exact newton_result_initial_or_clamped
    ((BlackScholes.mk 100 100 1 (1/20) (3/10)).call_price)
    100 100 1 (1/20) "call" (1e-6) 1 (3/10) (3/10) heval

/-- C2: the solver's failures are signalled as the non-numeric marker `none`,
distinguishable from every numeric volatility `some v`: iteration exhaustion
yields `none`; a near-zero vega at a non-converged point yields `none`; and
every numeric value the solver does return satisfies the convergence
criterion `|model_price - market_price| < tol`, so no failure is ever
conflated with a valid numeric answer. -/
theorem newton_failure_signaled
    (market_price S K T r : ℝ) (option_type : String) (tol : ℝ) (fuel : ℕ) (sigma : ℝ) :
    newtonLoop market_price S K T r option_type tol 0 sigma = none ∧
    (tol ≤ |model_price S K T r sigma option_type - market_price| →
      S * normPdf (BlackScholes.mk S K T r sigma).d1 * Real.sqrt T < 1e-10 →
      newtonLoop market_price S K T r option_type tol (fuel + 1) sigma = none) ∧
    (∀ v, newtonLoop market_price S K T r option_type tol fuel sigma = some v →
      |model_price S K T r v option_type - market_price| < tol) := by
  refine ⟨by simp [newtonLoop], ?_, ?_⟩
  · intro hdiff hvega
    rw [model_price] at hdiff
    simp only [newtonLoop]
    rw [if_neg (not_lt.mpr hdiff), if_pos hvega]
  · intro v hv
    exact newtonLoop_some_converged market_price S K T r option_type tol fuel sigma v hv

/-- Witness for C2: a deep out-of-the-money configuration (S=1e-11, K=1)
whose vega at the initial guess is below the 1e-10 cutoff while the price
residual exceeds the tolerance; the solver signals `none`. -/
theorem newton_failure_signaled_witness :
    newtonLoop 1 (1/10^11) 1 1 0 "call" (1e-6) (0 + 1) (3/10) = none := by
  have hb := (newton_failure_signaled 1 (1/10^11) 1 1 0 "call" (1e-6) 0 (3/10)).2.1
  apply hb
  · have hcdf1 := normCdf_le_one (BlackScholes.mk (1/10^11) 1 1 0 (3/10)).d1
    have hcdf2 := normCdf_nonneg (BlackScholes.mk (1/10^11) 1 1 0 (3/10)).d1
    have hcdf3 := normCdf_le_one (BlackScholes.mk (1/10^11) 1 1 0 (3/10)).d2
    have hcdf4 := normCdf_nonneg (BlackScholes.mk (1/10^11) 1 1 0 (3/10)).d2
    have hexp : Real.exp (-0 * 1) = 1 := by
      rw [show (-0 * 1 : ℝ) = 0 by ring, Real.exp_zero]
    have hprice : model_price (1/10^11) 1 1 0 (3/10) "call" ≤ 1/10^11 := by
      rw [model_price, if_pos rfl, BlackScholes.call_price]
      show (1/10^11 : ℝ) * normCdf _ - 1 * Real.exp (-0 * 1) * normCdf _ ≤ 1/10^11
      rw [hexp]
      nlinarith
    have habs : model_price (1/10^11) 1 1 0 (3/10) "call" - 1 < 0 := by
      nlinarith
    rw [abs_of_neg habs]
    nlinarith
  · have hpdf1 := normPdf_le_one (BlackScholes.mk (1/10^11) 1 1 0 (3/10)).d1
    have hpdf2 := normPdf_nonneg (BlackScholes.mk (1/10^11) 1 1 0 (3/10)).d1
    rw [Real.sqrt_one]
    nlinarith

end
